import Mathlib

/-!
Shallow embedding of the `tmslee/json-parser` repository (files
`include/json_parser/json.hpp` and `src/json.cpp`): the `JsonValue`
data model, its accessors, the recursive-descent `Parser`, and the
`dump` serializer, together with theorems settling the frozen claims
about this program.

Conventions of the embedding:
* the input `std::string` is a `List Char`, each element standing for
  one byte of the input (all characters that matter are below 0x100);
* a C++ function that can throw is a Lean function into `Except`;
  `ParseError(msg, pos)` becomes the structure `ParseErr`;
* `JsonNumber` (a C++ `double`) is modelled as `ℚ`, with
  `std::stod` read exactly; every number a claim evaluates is exactly
  representable in binary64, where the two readings agree;
* the parser loops (`skip_whitespace`, digit scans, the string loop,
  and the mutually recursive value/array/object functions) are
  written with an explicit fuel argument so that every definition is
  structurally recursive and evaluates by kernel reduction; the fuel
  supplied at the entry points is large enough that it never runs out
  on any input (each recursive step consumes input).
-/

namespace JsonParser

/-- `JsonValue`: the variant `JsonNull | JsonBool | JsonNumber |
JsonString | JsonArray | JsonObject` from `json.hpp`.  `JsonArray`
is `std::vector<JsonValue>`, modelled as `List Json`; `JsonObject`
is `std::unordered_map<std::string, JsonValue>`, modelled as an
association list with unique keys. -/
inductive Json where
  | null : Json
  | bool (b : Bool) : Json
  | num (q : ℚ) : Json
  | str (s : List Char) : Json
  | arr (xs : List Json) : Json
  | obj (kvs : List (List Char × Json)) : Json

mutual

def Json.beq : Json → Json → Bool
  | .null, .null => true
  | .bool a, .bool b => a == b
  | .num a, .num b => a == b
  | .str a, .str b => a == b
  | .arr a, .arr b => Json.beqList a b
  | .obj a, .obj b => Json.beqFields a b
  | _, _ => false

def Json.beqList : List Json → List Json → Bool
  | [], [] => true
  | x :: xs, y :: ys => Json.beq x y && Json.beqList xs ys
  | _, _ => false

def Json.beqFields : List (List Char × Json) → List (List Char × Json) → Bool
  | [], [] => true
  | (k1, v1) :: xs, (k2, v2) :: ys =>
      k1 == k2 && Json.beq v1 v2 && Json.beqFields xs ys
  | _, _ => false

end

mutual

theorem Json.beq_iff_eq : ∀ a b : Json, Json.beq a b = true ↔ a = b
  | .null, .null => by simp [Json.beq]
  | .bool _, .bool _ => by simp [Json.beq]
  | .num _, .num _ => by simp [Json.beq]
  | .str _, .str _ => by simp [Json.beq]
  | .arr x, .arr y => by simp [Json.beq, Json.beqList_iff_eq x y]
  | .obj x, .obj y => by simp [Json.beq, Json.beqFields_iff_eq x y]
  | .null, .bool _ | .null, .num _ | .null, .str _ | .null, .arr _ | .null, .obj _
  | .bool _, .null | .bool _, .num _ | .bool _, .str _ | .bool _, .arr _ | .bool _, .obj _
  | .num _, .null | .num _, .bool _ | .num _, .str _ | .num _, .arr _ | .num _, .obj _
  | .str _, .null | .str _, .bool _ | .str _, .num _ | .str _, .arr _ | .str _, .obj _
  | .arr _, .null | .arr _, .bool _ | .arr _, .num _ | .arr _, .str _ | .arr _, .obj _
  | .obj _, .null | .obj _, .bool _ | .obj _, .num _ | .obj _, .str _ | .obj _, .arr _ =>
      by simp [Json.beq]

theorem Json.beqList_iff_eq : ∀ a b : List Json, Json.beqList a b = true ↔ a = b
  | [], [] => by simp [Json.beqList]
  | x :: xs, y :: ys => by
      simp [Json.beqList, Json.beq_iff_eq x y, Json.beqList_iff_eq xs ys]
  | [], _ :: _ => by simp [Json.beqList]
  | _ :: _, [] => by simp [Json.beqList]

theorem Json.beqFields_iff_eq :
    ∀ a b : List (List Char × Json), Json.beqFields a b = true ↔ a = b
  | [], [] => by simp [Json.beqFields]
  | (k1, v1) :: xs, (k2, v2) :: ys => by
      simp [Json.beqFields, Json.beq_iff_eq v1 v2, Json.beqFields_iff_eq xs ys]
  | [], _ :: _ => by simp [Json.beqFields]
  | _ :: _, [] => by simp [Json.beqFields]

end

instance : DecidableEq Json := fun a b =>
  decidable_of_iff (Json.beq a b = true) (Json.beq_iff_eq a b)

instance {ε α : Type} [DecidableEq ε] [DecidableEq α] : DecidableEq (Except ε α) :=
  fun a b =>
    match a, b with
    | .ok x, .ok y => decidable_of_iff (x = y) (by simp)
    | .error x, .error y => decidable_of_iff (x = y) (by simp)
    | .ok _, .error _ => .isFalse (by simp)
    | .error _, .ok _ => .isFalse (by simp)

/-- `ParseError` from `json.hpp`: a diagnostic message together with the
byte offset at which the failure was detected. -/
structure ParseErr where
  msg : String
  pos : Nat
deriving DecidableEq, Repr

/-- A single quote character, used to spell out the C++ error message
texts that contain quotes. -/
def squote : Char := Char.ofNat 39

/-- The message of `Parser::expect`:  `"expected '" + c + "'"`. -/
def expectMsg (c : Char) : String :=
  "expected " ++ String.mk [squote, c, squote]

/-- `std::isspace` in the C locale: space, tab, line feed, vertical
tab, form feed, carriage return.  `skip_whitespace` feeds it the raw
input byte. -/
def isCSpace (c : Char) : Bool :=
  c.toNat = 0x20 || c.toNat = 0x09 || c.toNat = 0x0A ||
    c.toNat = 0x0B || c.toNat = 0x0C || c.toNat = 0x0D

/-- `std::isdigit`. -/
def isDigitChar (c : Char) : Bool :=
  0x30 ≤ c.toNat && c.toNat ≤ 0x39

/-- `std::isxdigit`. -/
def isXDigitChar (c : Char) : Bool :=
  isDigitChar c || (0x61 ≤ c.toNat && c.toNat ≤ 0x66) ||
    (0x41 ≤ c.toNat && c.toNat ≤ 0x46)

/-- Numeric value of one hex digit (how `std::stoi(hex, nullptr, 16)`
reads each digit). -/
def hexVal (c : Char) : Nat :=
  if isDigitChar c then c.toNat - 0x30
  else if 0x61 ≤ c.toNat then c.toNat - 0x61 + 10
  else c.toNat - 0x41 + 10

/-- `Parser::peek`: the byte at the cursor, or `'\0'` as the
end-of-input sentinel. -/
def peek (input : List Char) (pos : Nat) : Char :=
  input.getD pos (Char.ofNat 0)

/-- `Parser::consume`: return the byte at the cursor and advance, or
fail at end of input. -/
def consume (input : List Char) (pos : Nat) : Except ParseErr (Char × Nat) :=
  if h : pos < input.length then .ok (input.get ⟨pos, h⟩, pos + 1)
  else .error ⟨"unexpected end of input", pos⟩

/-- `Parser::expect`: consume one byte and require it to be `c`. -/
def expect (input : List Char) (pos : Nat) (c : Char) : Except ParseErr Nat :=
  match consume input pos with
  | .error e => .error e
  | .ok (c2, p2) => if c2 = c then .ok p2 else .error ⟨expectMsg c, p2 - 1⟩

/-- The loop of `Parser::skip_whitespace`, with explicit fuel so the
recursion is structural.  Each step advances the cursor, so
`input.length` steps always suffice. -/
def skipWsF : Nat → List Char → Nat → Nat
  | 0, _, pos => pos
  | k + 1, input, pos =>
      if pos < input.length ∧ isCSpace (peek input pos) then skipWsF k input (pos + 1)
      else pos

/-- `Parser::skip_whitespace`:
`while(pos_ < input_.size() && std::isspace(input_[pos_])) ++pos_;`. -/
def skip_whitespace (input : List Char) (pos : Nat) : Nat :=
  skipWsF input.length input pos

/-- The `while(std::isdigit(peek())) ++pos_;` loops of
`Parser::parse_number`, with explicit fuel. -/
def scanDigitsF : Nat → List Char → Nat → Nat
  | 0, _, pos => pos
  | k + 1, input, pos =>
      if isDigitChar (peek input pos) then scanDigitsF k input (pos + 1)
      else pos

/-- A digit run starting at `pos`: the position of the first
non-digit at or after `pos`. -/
def scanDigits (input : List Char) (pos : Nat) : Nat :=
  scanDigitsF input.length input pos

/-- `input_.substr(a, b - a)`: the bytes of positions `[a, b)`. -/
def slice (input : List Char) (a b : Nat) : List Char :=
  (input.drop a).take (b - a)

/-- `Parser::parse_null`: literal match of `input_.substr(pos_, 4)`
against `"null"`. -/
def parse_null (input : List Char) (pos : Nat) : Except ParseErr (Json × Nat) :=
  if (input.drop pos).take 4 = ("null".toList) then .ok (Json.null, pos + 4)
  else .error ⟨"expected " ++ String.mk [squote] ++ "null" ++ String.mk [squote], pos⟩

/-- `Parser::parse_bool`: literal match against `"true"` then
`"false"`. -/
def parse_bool (input : List Char) (pos : Nat) : Except ParseErr (Json × Nat) :=
  if (input.drop pos).take 4 = ("true".toList) then .ok (Json.bool true, pos + 4)
  else if (input.drop pos).take 5 = ("false".toList) then .ok (Json.bool false, pos + 5)
  else .error ⟨"expected " ++ String.mk [squote] ++ "true" ++ String.mk [squote] ++
      " or " ++ String.mk [squote] ++ "false" ++ String.mk [squote], pos⟩

/-- Value of a digit string read left to right, as `std::stod` and
`std::stoi` read digit runs. -/
def digitsToNat (ds : List Char) : Nat :=
  ds.foldl (fun a c => 10 * a + (c.toNat - 0x30)) 0

/-- The value `std::stod(num_str)` computes on a number token matched
by `parse_number`, read exactly: sign, integer part, optional
fraction, optional signed decimal exponent.  `std::stod` additionally
rounds this rational to the nearest binary64 double; every number any
theorem below evaluates is exactly representable in binary64, where
the exact and the rounded reading coincide. -/
def stodQ (s : List Char) : ℚ :=
  let sgn : Int := match s with
    | c :: _ => if c = '-' then -1 else 1
    | [] => 1
  let s1 : List Char := match s with
    | c :: rest => if c = '-' ∨ c = '+' then rest else s
    | [] => s
  let ip := s1.takeWhile isDigitChar
  let s2 := s1.dropWhile isDigitChar
  let fp : List Char := match s2 with
    | c :: rest => if c = '.' then rest.takeWhile isDigitChar else []
    | [] => []
  let s3 : List Char := match s2 with
    | c :: rest => if c = '.' then rest.dropWhile isDigitChar else s2
    | [] => s2
  let ex : Int := match s3 with
    | c :: rest =>
        if c = 'e' ∨ c = 'E' then
          match rest with
          | c2 :: rest2 =>
              if c2 = '-' then -(digitsToNat (rest2.takeWhile isDigitChar) : Int)
              else if c2 = '+' then (digitsToNat (rest2.takeWhile isDigitChar) : Int)
              else (digitsToNat (rest.takeWhile isDigitChar) : Int)
          | [] => 0
        else 0
    | [] => 0
  -- sgn * (ip.fp) * 10^ex, assembled as a single exact fraction
  let base : Int := sgn * ((digitsToNat ip * 10 ^ fp.length + digitsToNat fp : Nat) : Int)
  if 0 ≤ ex then mkRat (base * (10 : Int) ^ ex.toNat) (10 ^ fp.length)
  else mkRat base (10 ^ fp.length * 10 ^ (-ex).toNat)

/-- The integer-part block of `Parser::parse_number`: a lone `0`, or
a nonzero digit followed by the digit run, else the invalid-number
error at the current position. -/
def parse_number_int (input : List Char) (p1 : Nat) : Except ParseErr Nat :=
  if peek input p1 = '0' then .ok (p1 + 1)
  else if isDigitChar (peek input p1) then .ok (scanDigits input p1)
  else .error ⟨"invalid number", p1⟩

/-- The fractional-part block of `Parser::parse_number`: on `.`, a
mandatory digit run (the error position is after the dot, where the
missing digit was expected). -/
def parse_number_frac (input : List Char) (p2 : Nat) : Except ParseErr Nat :=
  if peek input p2 = '.' then
    if isDigitChar (peek input (p2 + 1)) then .ok (scanDigits input (p2 + 1))
    else .error ⟨"invalid number", p2 + 1⟩
  else .ok p2

/-- The exponent block of `Parser::parse_number`: on `e`/`E`, an
optional sign and a mandatory digit run. -/
def parse_number_exp (input : List Char) (p3 : Nat) : Except ParseErr Nat :=
  if peek input p3 = 'e' ∨ peek input p3 = 'E' then
    let p4 := if peek input (p3 + 1) = '+' ∨ peek input (p3 + 1) = '-'
      then p3 + 2 else p3 + 1
    if isDigitChar (peek input p4) then .ok (scanDigits input p4)
    else .error ⟨"invalid number", p4⟩
  else .ok p3

/-- `Parser::parse_number`: optional `-`, then the three sequential
blocks above, then `std::stod` of the matched substring
`input_.substr(start, pos_ - start)`. -/
def parse_number (input : List Char) (pos : Nat) : Except ParseErr (Json × Nat) :=
  let p1 := if peek input pos = '-' then pos + 1 else pos
  match parse_number_int input p1 with
  | .error e => .error e
  | .ok p2 =>
    match parse_number_frac input p2 with
    | .error e => .error e
    | .ok p3 =>
      match parse_number_exp input p3 with
      | .error e => .error e
      | .ok p4 => .ok (Json.num (stodQ (slice input pos p4)), p4)

/-- The UTF-8 re-encoding of a decoded `\uXXXX` code point, exactly
the three-way `if` of `parse_string`: one byte below 0x80, two below
0x800, three otherwise. -/
def utf8Encode (cp : Nat) : List Char :=
  if cp < 0x80 then [Char.ofNat cp]
  else if cp < 0x800 then
    [Char.ofNat (0xC0 ||| (cp >>> 6)), Char.ofNat (0x80 ||| (cp &&& 0x3F))]
  else
    [Char.ofNat (0xE0 ||| (cp >>> 12)), Char.ofNat (0x80 ||| ((cp >>> 6) &&& 0x3F)),
      Char.ofNat (0x80 ||| (cp &&& 0x3F))]

/-- The `while(peek() != '"')` loop of `Parser::parse_string`, with
explicit fuel.  Every iteration advances the cursor while it is
inside the input, so `input.length + 1` steps always suffice.  In the
`\uXXXX` arm the C++ code checks `isxdigit(peek())` before each of
the four `consume()` calls, so `consume` can never hit end of input
there; the checks and the consumed digits are written here directly
with `peek`. -/
def parseStringLoopF :
    Nat → List Char → Nat → List Char → Except ParseErr (List Char × Nat)
  | 0, _, pos, _ => .error ⟨"string fuel exhausted", pos⟩
  | k + 1, input, pos, acc =>
    if peek input pos = '"' then .ok (acc, pos)
    else if peek input pos = Char.ofNat 0 then .error ⟨"unterminated string", pos⟩
    else if peek input pos = '\\' then
      match consume input (pos + 1) with
      | .error e => .error e
      | .ok (esc, p2) =>
        if esc = '"' then parseStringLoopF k input p2 (acc ++ ['"'])
        else if esc = '\\' then parseStringLoopF k input p2 (acc ++ ['\\'])
        else if esc = '/' then parseStringLoopF k input p2 (acc ++ ['/'])
        else if esc = 'n' then parseStringLoopF k input p2 (acc ++ ['\n'])
        else if esc = 'r' then parseStringLoopF k input p2 (acc ++ ['\r'])
        else if esc = 't' then parseStringLoopF k input p2 (acc ++ ['\t'])
        else if esc = 'b' then parseStringLoopF k input p2 (acc ++ [Char.ofNat 8])
        else if esc = 'f' then parseStringLoopF k input p2 (acc ++ [Char.ofNat 12])
        else if esc = 'u' then
          if isXDigitChar (peek input p2) = false then
            .error ⟨"invalid unicode escape", p2⟩
          else if isXDigitChar (peek input (p2 + 1)) = false then
            .error ⟨"invalid unicode escape", p2 + 1⟩
          else if isXDigitChar (peek input (p2 + 2)) = false then
            .error ⟨"invalid unicode escape", p2 + 2⟩
          else if isXDigitChar (peek input (p2 + 3)) = false then
            .error ⟨"invalid unicode escape", p2 + 3⟩
          else
            let cp := hexVal (peek input p2) * 4096 + hexVal (peek input (p2 + 1)) * 256 +
              hexVal (peek input (p2 + 2)) * 16 + hexVal (peek input (p2 + 3))
            parseStringLoopF k input (p2 + 4) (acc ++ utf8Encode cp)
        else .error ⟨"invalid escape sequence", p2 - 1⟩
    else
      match consume input pos with
      | .error e => .error e
      | .ok (c, p2) => parseStringLoopF k input p2 (acc ++ [c])

/-- `Parser::parse_string`: opening quote, the character/escape loop,
closing quote.  The C++ function wraps the accumulated bytes in a
`JsonValue`; the object parser immediately unwraps keys again with
`as_string()`, so the list of bytes is returned directly here and the
callers wrap it. -/
def parse_string (input : List Char) (pos : Nat) :
    Except ParseErr (List Char × Nat) :=
  match expect input pos '"' with
  | .error e => .error e
  | .ok p1 =>
    match parseStringLoopF (input.length + 1) input p1 [] with
    | .error e => .error e
    | .ok (s, p2) =>
      match expect input p2 '"' with
      | .error e => .error e
      | .ok p3 => .ok (s, p3)

/-- `obj[std::move(key)] = std::move(value)` on the
`std::unordered_map`: replace the mapped value if the key is present,
otherwise insert the pair.  The hash map iterates in an unspecified
order; the association list keeps a replaced key in place and puts a
new key at the end, which fixes one such order. -/
def objSet (kvs : List (List Char × Json)) (k : List Char) (v : Json) :
    List (List Char × Json) :=
  match kvs with
  | [] => [(k, v)]
  | (k2, v2) :: rest =>
      if k2 = k then (k2, v) :: rest else (k2, v2) :: objSet rest k v

mutual

/-- `Parser::parse_value`: skip whitespace and dispatch on the next
byte.  The fuel decreases on every mutual call; `parse` supplies
enough that it never runs out (each step consumes input). -/
def parse_value : Nat → List Char → Nat → Except ParseErr (Json × Nat)
  | 0, _, pos => .error ⟨"parser fuel exhausted", pos⟩
  | k + 1, input, pos0 =>
    let pos := skip_whitespace input pos0
    let c := peek input pos
    if c = 'n' then parse_null input pos
    else if c = 't' ∨ c = 'f' then parse_bool input pos
    else if c = '"' then
      match parse_string input pos with
      | .error e => .error e
      | .ok (s, p) => .ok (Json.str s, p)
    else if c = '[' then parse_array k input pos
    else if c = '{' then parse_object k input pos
    else if c = '-' ∨ isDigitChar c then parse_number input pos
    else .error ⟨"unexpected character", pos⟩
termination_by structural k _ _ => k

/-- `Parser::parse_array` up to its first loop iteration. -/
def parse_array : Nat → List Char → Nat → Except ParseErr (Json × Nat)
  | 0, _, pos => .error ⟨"parser fuel exhausted", pos⟩
  | k + 1, input, pos =>
    match expect input pos '[' with
    | .error e => .error e
    | .ok p1 =>
      let p2 := skip_whitespace input p1
      if peek input p2 = ']' then .ok (Json.arr [], p2 + 1)
      else parse_array_loop k input p2 []
termination_by structural k _ _ => k

/-- The `while(true)` loop of `Parser::parse_array`: element,
whitespace, closing bracket or comma. -/
def parse_array_loop :
    Nat → List Char → Nat → List Json → Except ParseErr (Json × Nat)
  | 0, _, pos, _ => .error ⟨"parser fuel exhausted", pos⟩
  | k + 1, input, pos, acc =>
    match parse_value k input pos with
    | .error e => .error e
    | .ok (v, p1) =>
      let p2 := skip_whitespace input p1
      if peek input p2 = ']' then .ok (Json.arr (acc ++ [v]), p2 + 1)
      else
        match expect input p2 ',' with
        | .error e => .error e
        | .ok p3 => parse_array_loop k input (skip_whitespace input p3) (acc ++ [v])
termination_by structural k _ _ _ => k

/-- `Parser::parse_object` up to its first loop iteration. -/
def parse_object : Nat → List Char → Nat → Except ParseErr (Json × Nat)
  | 0, _, pos => .error ⟨"parser fuel exhausted", pos⟩
  | k + 1, input, pos =>
    match expect input pos '{' with
    | .error e => .error e
    | .ok p1 =>
      let p2 := skip_whitespace input p1
      if peek input p2 = '}' then .ok (Json.obj [], p2 + 1)
      else parse_object_loop k input p2 []
termination_by structural k _ _ => k

/-- The `while(true)` loop of `Parser::parse_object`: whitespace,
quoted key, colon, value, store into the map, closing brace or
comma. -/
def parse_object_loop :
    Nat → List Char → Nat → List (List Char × Json) → Except ParseErr (Json × Nat)
  | 0, _, pos, _ => .error ⟨"parser fuel exhausted", pos⟩
  | k + 1, input, pos, acc =>
    let p0 := skip_whitespace input pos
    if peek input p0 = '"' then
      match parse_string input p0 with
      | .error e => .error e
      | .ok (key, p1) =>
        let p2 := skip_whitespace input p1
        match expect input p2 ':' with
        | .error e => .error e
        | .ok p3 =>
          match parse_value k input p3 with
          | .error e => .error e
          | .ok (v, p4) =>
            let acc2 := objSet acc key v
            let p5 := skip_whitespace input p4
            if peek input p5 = '}' then .ok (Json.obj acc2, p5 + 1)
            else
              match expect input p5 ',' with
              | .error e => .error e
              | .ok p6 => parse_object_loop k input p6 acc2
    else .error ⟨"expected string key", p0⟩
termination_by structural k _ _ _ => k

end

/-- Fuel supplied at the top level.  Every unit of fuel spent either
consumes at least one input byte or moves to a sub-parser that does
before spending the next unit, so four units per byte plus a constant
can never be exhausted. -/
def topFuel (input : List Char) : Nat := 4 * input.length + 8

/-- `Parser::parse` (the body of `json::parse`): skip leading
whitespace, parse one value, skip trailing whitespace, require end of
input. -/
def parse (input : List Char) : Except ParseErr Json :=
  let p0 := skip_whitespace input 0
  match parse_value (topFuel input) input p0 with
  | .error e => .error e
  | .ok (v, p1) =>
    let p2 := skip_whitespace input p1
    if p2 ≠ input.length then .error ⟨"unexpected characters after JSON", p2⟩
    else .ok v

/-! ### The value model: type checks, accessors, element access, size -/

/-- `JsonValue::is_null`. -/
def is_null : Json → Bool
  | .null => true
  | _ => false

/-- `JsonValue::is_bool`. -/
def is_bool : Json → Bool
  | .bool _ => true
  | _ => false

/-- `JsonValue::is_number`. -/
def is_number : Json → Bool
  | .num _ => true
  | _ => false

/-- `JsonValue::is_string`. -/
def is_string : Json → Bool
  | .str _ => true
  | _ => false

/-- `JsonValue::is_array`. -/
def is_array : Json → Bool
  | .arr _ => true
  | _ => false

/-- `JsonValue::is_object`. -/
def is_object : Json → Bool
  | .obj _ => true
  | _ => false

/-- `JsonValue::as_bool`:
`if(!is_bool()) throw std::runtime_error("not a bool");`.  A thrown
`std::runtime_error` is the `.error` case carrying its message. -/
def as_bool : Json → Except String Bool
  | .bool b => .ok b
  | _ => .error "not a bool"

/-- `JsonValue::as_number`. -/
def as_number : Json → Except String ℚ
  | .num q => .ok q
  | _ => .error "not a number"

/-- `JsonValue::as_string`. -/
def as_string : Json → Except String (List Char)
  | .str s => .ok s
  | _ => .error "not a string"

/-- `JsonValue::as_array`.  The const and the mutable C++ overloads
have identical bodies (the same guard, the same contained vector);
both are this function. -/
def as_array : Json → Except String (List Json)
  | .arr xs => .ok xs
  | _ => .error "not an array"

/-- `JsonValue::as_object`.  The const and the mutable C++ overloads
have identical bodies; both are this function. -/
def as_object : Json → Except String (List (List Char × Json))
  | .obj kvs => .ok kvs
  | _ => .error "not an object"

/-- `JsonValue::operator[](std::size_t)` (both overloads):
`as_array().at(index)`; `std::vector::at` throws `std::out_of_range`
when the index is not below the length. -/
def atIndex (j : Json) (i : Nat) : Except String Json :=
  match as_array j with
  | .error e => .error e
  | .ok xs =>
    match xs.get? i with
    | some v => .ok v
    | none => .error "vector::at index out of range"

/-- Lookup in the modelled `std::unordered_map`. -/
def objAt (kvs : List (List Char × Json)) (k : List Char) : Option Json :=
  match kvs with
  | [] => none
  | (k2, v) :: rest => if k2 = k then some v else objAt rest k

/-- `JsonValue::operator[](const std::string&) const`:
`as_object().at(key)`; `std::unordered_map::at` throws
`std::out_of_range` for an absent key and never inserts. -/
def constIndexKey (j : Json) (k : List Char) : Except String Json :=
  match as_object j with
  | .error e => .error e
  | .ok kvs =>
    match objAt kvs k with
    | some v => .ok v
    | none => .error "unordered_map::at key not found"

/-- `JsonValue::operator[](const std::string&)` (mutable):
`as_object()[key]`; `std::unordered_map::operator[]` default-inserts
a `JsonValue()` (which is Null) for an absent key.  The result is the
object after the access together with the value the returned
reference designates. -/
def mutIndexKey (j : Json) (k : List Char) : Except String (Json × Json) :=
  match as_object j with
  | .error e => .error e
  | .ok kvs =>
    match objAt kvs k with
    | some v => .ok (Json.obj kvs, v)
    | none => .ok (Json.obj (kvs ++ [(k, Json.null)]), Json.null)

/-- `JsonValue::size`: element count for Array, key count for Object,
`std::runtime_error` otherwise. -/
def size : Json → Except String Nat
  | .arr xs => .ok xs.length
  | .obj kvs => .ok kvs.length
  | _ => .error "size() only valid for arrays and objects"

/-! ### The serializer: `dump` / `dump_impl` -/

/-- The `switch(c)` of the string case of `JsonValue::dump_impl`:
escape the quote, the backslash, newline, carriage return and tab;
emit every other byte unchanged. -/
def escChar (c : Char) : List Char :=
  if c = '"' then ['\\', '"']
  else if c = '\\' then ['\\', '\\']
  else if c = '\n' then ['\\', 'n']
  else if c = '\r' then ['\\', 'r']
  else if c = '\t' then ['\\', 't']
  else [c]

/-- `std::string(count, ' ')` as used for indentation (the count is
never negative when this is reached). -/
def indentSpaces (n : Int) : List Char :=
  List.replicate n.toNat ' '

/-- The decimal digits of a natural number (fuelled; `n` digits
always suffice for a positive `n`). -/
def natDigitsAux : Nat → Nat → List Char
  | 0, _ => []
  | k + 1, n =>
      if n = 0 then [] else natDigitsAux k (n / 10) ++ [Char.ofNat (0x30 + n % 10)]

/-- The decimal digits of a natural number. -/
def natDigits (n : Nat) : List Char :=
  if n = 0 then ['0'] else natDigitsAux n n

/-- Drop trailing zero characters (`%g` strips them). -/
def stripZeros (l : List Char) : List Char :=
  (l.reverse.dropWhile (fun c => c = '0')).reverse

/-- Model of `oss << as_number()` in `dump_impl`: the C++ default
ostream conversion of a `double`, which is `%g` with 6 significant
digits — round to six significant decimal digits, use fixed notation
when the decimal exponent is in `[-4, 6)` and scientific notation
otherwise, and strip trailing fractional zeros.  The binary64
rounding inside `std::ostream` is abstracted by formatting the exact
rational; no theorem below depends on this definition's output. -/
def formatNumber (q : ℚ) : List Char :=
  if q = 0 then ['0']
  else
    let sgn : List Char := if q < 0 then ['-'] else []
    let a : ℚ := |q|
    let e : Int :=
      if 1 ≤ a then (Nat.log 10 a.floor.toNat : Int)
      else
        let L := Nat.log 10 (a⁻¹).floor.toNat
        if 1 ≤ a * (10 : ℚ) ^ L then -(L : Int) else -(L : Int) - 1
    let scaled : ℚ := a / (10 : ℚ) ^ (e - 5)
    let n : Nat := (round scaled).toNat
    let n2 : Nat := if n = 10 ^ 6 then 10 ^ 5 else n
    let e2 : Int := if n = 10 ^ 6 then e + 1 else e
    let ds := natDigits n2
    if -4 ≤ e2 ∧ e2 < 6 then
      if 0 ≤ e2 then
        let ipart := ds.take (e2 + 1).toNat
        let fpart := stripZeros (ds.drop (e2 + 1).toNat)
        sgn ++ ipart ++ (if fpart = [] then [] else '.' :: fpart)
      else
        sgn ++ ['0', '.'] ++ List.replicate (-e2 - 1).toNat '0' ++ stripZeros ds
    else
      let frac := stripZeros (ds.drop 1)
      let m := e2.natAbs
      sgn ++ ds.take 1 ++ (if frac = [] then [] else '.' :: frac) ++
        ['e'] ++ (if e2 < 0 then ['-'] else ['+']) ++
        (if m < 10 then ['0', Char.ofNat (0x30 + m)] else natDigits m)

mutual

/-- `JsonValue::dump_impl`. -/
def dump_impl : Json → Int → Int → List Char
  | .null, _, _ => ("null".toList)
  | .bool b, _, _ => if b then ("true".toList) else ("false".toList)
  | .num q, _, _ => formatNumber q
  | .str s, _, _ => ['"'] ++ s.flatMap escChar ++ ['"']
  | .arr items, indent, current =>
      ['['] ++ dumpItems items indent current true ++
        (if 0 ≤ indent ∧ items ≠ [] then '\n' :: indentSpaces current else []) ++ [']']
  | .obj kvs, indent, current =>
      ['{'] ++ dumpFields kvs indent current true ++
        (if 0 ≤ indent ∧ kvs ≠ [] then '\n' :: indentSpaces current else []) ++ ['}']

/-- The `for(const auto& item : arr)` loop of the array case of
`dump_impl`. -/
def dumpItems : List Json → Int → Int → Bool → List Char
  | [], _, _, _ => []
  | item :: rest, indent, current, first =>
      (if first then [] else [',']) ++
        (if 0 ≤ indent then '\n' :: indentSpaces (current + indent) else []) ++
        dump_impl item indent (current + indent) ++
        dumpItems rest indent current false

/-- The `for(const auto& [key, val] : obj)` loop of the object case
of `dump_impl`. -/
def dumpFields : List (List Char × Json) → Int → Int → Bool → List Char
  | [], _, _, _ => []
  | (key, val) :: rest, indent, current, first =>
      (if first then [] else [',']) ++
        (if 0 ≤ indent then '\n' :: indentSpaces (current + indent) else []) ++
        ['"'] ++ key ++ ['"', ':'] ++ (if 0 ≤ indent then [' '] else []) ++
        dump_impl val indent (current + indent) ++
        dumpFields rest indent current false

end

/-- `JsonValue::dump(indent)`: serialize with `dump_impl(out, indent, 0)`.
`indent = -1` (the C++ default argument) is compact mode. -/
def dump (j : Json) (indent : Int) : List Char :=
  dump_impl j indent 0

/-- Whether an `Except` is the success case (whether the C++ call
returns rather than throws). -/
def isOkE {ε α : Type} : Except ε α → Bool
  | .ok _ => true
  | .error _ => false

/-! ### General lemmas about the parsing loops -/

theorem skipWsF_le : ∀ (k : Nat) (input : List Char) (pos : Nat),
    pos ≤ skipWsF k input pos
  | 0, _, _ => Nat.le_refl _
  | k + 1, input, pos => by
      unfold skipWsF
      split
      · exact Nat.le_trans (Nat.le_succ pos) (skipWsF_le k input (pos + 1))
      · exact Nat.le_refl _

theorem skipWsF_le_length : ∀ (k : Nat) (input : List Char) (pos : Nat),
    pos ≤ input.length → skipWsF k input pos ≤ input.length
  | 0, _, _, h => h
  | k + 1, input, pos, h => by
      unfold skipWsF
      split
      · next hc => exact skipWsF_le_length k input (pos + 1) hc.1
      · exact h

theorem skipWsF_ws : ∀ (k : Nat) (input : List Char) (pos i : Nat),
    pos ≤ i → i < skipWsF k input pos → isCSpace (peek input i) = true
  | 0, _, pos, i, h1, h2 => absurd (Nat.lt_of_le_of_lt h1 h2) (Nat.lt_irrefl pos)
  | k + 1, input, pos, i, h1, h2 => by
      unfold skipWsF at h2
      split at h2
      · next hc =>
          rcases Nat.eq_or_lt_of_le h1 with h | h
          · exact h ▸ hc.2
          · exact skipWsF_ws k input (pos + 1) i h h2
      · exact absurd (Nat.lt_of_le_of_lt h1 h2) (Nat.lt_irrefl pos)

theorem skipWsF_stop : ∀ (k : Nat) (input : List Char) (pos : Nat),
    input.length - pos ≤ k →
    ¬(skipWsF k input pos < input.length ∧
        isCSpace (peek input (skipWsF k input pos)) = true)
  | 0, input, pos, h => by
      unfold skipWsF
      intro hc
      omega
  | k + 1, input, pos, h => by
      unfold skipWsF
      split
      · next hc => exact skipWsF_stop k input (pos + 1) (by omega)
      · next hc => exact hc

theorem scanDigitsF_le : ∀ (k : Nat) (input : List Char) (pos : Nat),
    pos ≤ scanDigitsF k input pos
  | 0, _, _ => Nat.le_refl _
  | k + 1, input, pos => by
      unfold scanDigitsF
      split
      · exact Nat.le_trans (Nat.le_succ pos) (scanDigitsF_le k input (pos + 1))
      · exact Nat.le_refl _

/-- A digit is in particular not the `'\0'` sentinel, so a digit seen
by `peek` lies inside the input. -/
theorem lt_length_of_isDigitChar {input : List Char} {pos : Nat}
    (h : isDigitChar (peek input pos) = true) : pos < input.length := by
  by_contra hge
  have : peek input pos = Char.ofNat 0 := by
    simp [peek, List.getD_eq_getElem?_getD, List.getElem?_eq_none (by omega : input.length ≤ pos)]
  rw [this] at h
  simp [isDigitChar, Char.ofNat] at h

theorem scanDigitsF_le_length : ∀ (k : Nat) (input : List Char) (pos : Nat),
    pos ≤ input.length → scanDigitsF k input pos ≤ input.length
  | 0, _, _, h => h
  | k + 1, input, pos, h => by
      unfold scanDigitsF
      split
      · next hc =>
          exact scanDigitsF_le_length k input (pos + 1) (lt_length_of_isDigitChar hc)
      · exact h

theorem scanDigitsF_digits : ∀ (k : Nat) (input : List Char) (pos i : Nat),
    pos ≤ i → i < scanDigitsF k input pos → isDigitChar (peek input i) = true
  | 0, _, pos, i, h1, h2 => absurd (Nat.lt_of_le_of_lt h1 h2) (Nat.lt_irrefl pos)
  | k + 1, input, pos, i, h1, h2 => by
      unfold scanDigitsF at h2
      split at h2
      · next hc =>
          rcases Nat.eq_or_lt_of_le h1 with h | h
          · exact h ▸ hc
          · exact scanDigitsF_digits k input (pos + 1) i h h2
      · exact absurd (Nat.lt_of_le_of_lt h1 h2) (Nat.lt_irrefl pos)

theorem scanDigitsF_stop : ∀ (k : Nat) (input : List Char) (pos : Nat),
    input.length - pos ≤ k →
    isDigitChar (peek input (scanDigitsF k input pos)) = false
  | 0, input, pos, h => by
      unfold scanDigitsF
      cases hd : isDigitChar (peek input pos) with
      | false => rfl
      | true =>
          have := lt_length_of_isDigitChar hd
          omega
  | k + 1, input, pos, h => by
      unfold scanDigitsF
      split
      · next hc =>
          have := lt_length_of_isDigitChar hc
          exact scanDigitsF_stop k input (pos + 1) (by omega)
      · next hc => exact (Bool.not_eq_true _).mp hc

theorem scanDigits_le (input : List Char) (pos : Nat) : pos ≤ scanDigits input pos :=
  scanDigitsF_le _ _ _

theorem scanDigits_le_length (input : List Char) (pos : Nat) (h : pos ≤ input.length) :
    scanDigits input pos ≤ input.length :=
  scanDigitsF_le_length _ _ _ h

theorem scanDigits_digits (input : List Char) (pos i : Nat) (h1 : pos ≤ i)
    (h2 : i < scanDigits input pos) : isDigitChar (peek input i) = true :=
  scanDigitsF_digits _ _ _ _ h1 h2

theorem scanDigits_stop (input : List Char) (pos : Nat) :
    isDigitChar (peek input (scanDigits input pos)) = false :=
  scanDigitsF_stop _ _ _ (Nat.sub_le _ _)

theorem scanDigits_advance {input : List Char} {pos : Nat}
    (h : isDigitChar (peek input pos) = true) : pos + 1 ≤ scanDigits input pos := by
  rcases Nat.eq_or_lt_of_le (scanDigits_le input pos) with he | hlt
  · have := scanDigits_stop input pos
    rw [← he] at this
    rw [this] at h
    exact absurd h (by simp)
  · exact hlt

/-! ### Lemmas about `peek` and `slice` -/

theorem lt_length_of_peek_ne_nul {input : List Char} {pos : Nat}
    (h : peek input pos ≠ Char.ofNat 0) : pos < input.length := by
  by_contra hge
  exact h (by
    simp [peek, List.getD_eq_getElem?_getD,
      List.getElem?_eq_none (by omega : input.length ≤ pos)])

theorem peek_eq_nul_of_ge {input : List Char} {pos : Nat}
    (h : input.length ≤ pos) : peek input pos = Char.ofNat 0 := by
  simp [peek, List.getD_eq_getElem?_getD, List.getElem?_eq_none h]

theorem peek_append_head : ∀ (pre : List Char) (c : Char) (rest : List Char),
    peek (pre ++ c :: rest) pre.length = c
  | [], c, rest => rfl
  | a :: pre, c, rest => by
      simpa [peek, List.getD] using peek_append_head pre c rest

theorem char_eq_of_toNat_eq {c d : Char} (h : c.toNat = d.toNat) : c = d := by
  have h1 : Char.ofNat c.toNat = Char.ofNat d.toNat := by rw [h]
  rwa [Char.ofNat_toNat, Char.ofNat_toNat] at h1

theorem list_take_add : ∀ (L : List Char) (n k : Nat),
    L.take (n + k) = L.take n ++ (L.drop n).take k
  | L, 0, k => by simp
  | [], n + 1, k => by simp
  | a :: l, n + 1, k => by
      simp only [List.take_succ_cons, List.drop_succ_cons, List.cons_append]
      rw [Nat.succ_add]
      simp only [List.take_succ_cons]
      rw [list_take_add l n k]

theorem slice_self (input : List Char) (a : Nat) : slice input a a = [] := by
  simp [slice]

theorem slice_split (input : List Char) {a m b : Nat} (h1 : a ≤ m) (h2 : m ≤ b) :
    slice input a b = slice input a m ++ slice input m b := by
  unfold slice
  have hb : b - a = (m - a) + (b - m) := by omega
  rw [hb, list_take_add]
  congr 2
  rw [List.drop_drop]
  congr 1
  omega

theorem slice_head (input : List Char) {a b : Nat} (hab : a < b)
    (ha : a < input.length) :
    slice input a b = peek input a :: slice input (a + 1) b := by
  unfold slice
  rw [List.drop_eq_getElem_cons ha]
  have hb : b - a = (b - (a + 1)) + 1 := by omega
  rw [hb, List.take_succ_cons]
  congr 1
  simp [peek, List.getD_eq_getElem?_getD, List.getElem?_eq_getElem ha]

theorem slice_length (input : List Char) {a b : Nat} (hb : b ≤ input.length) :
    (slice input a b).length = b - a := by
  simp [slice]
  omega

theorem slice_all : ∀ (n : Nat) (input : List Char) (P : Char → Bool) (a b : Nat),
    b - a ≤ n → b ≤ input.length →
    (∀ i, a ≤ i → i < b → P (peek input i) = true) →
    (slice input a b).all P = true
  | 0, input, P, a, b, hn, _, _ => by
      have : slice input a b = [] := by
        unfold slice
        have : b - a = 0 := by omega
        simp [this]
      simp [this]
  | n + 1, input, P, a, b, hn, hb, hp => by
      rcases Nat.lt_or_ge a b with hab | hab
      · rw [slice_head input hab (by omega)]
        simp only [List.all_cons, Bool.and_eq_true]
        exact ⟨hp a (Nat.le_refl a) hab,
          slice_all n input P (a + 1) b (by omega) hb
            (fun i hi1 hi2 => hp i (by omega) hi2)⟩
      · have : slice input a b = [] := by
          unfold slice
          have : b - a = 0 := by omega
          simp [this]
        simp [this]

theorem slice_append (pre s tail : List Char) :
    slice (pre ++ s ++ tail) pre.length (pre.length + s.length) = s := by
  unfold slice
  rw [List.append_assoc, List.drop_left]
  simp [List.take_left]

theorem peek_append_right : ∀ (pre rest : List Char) (i : Nat),
    peek (pre ++ rest) (pre.length + i) = peek rest i
  | [], rest, i => by simp
  | a :: pre, rest, i => by
      have harr : (a :: pre).length + i = (pre.length + i) + 1 := by
        simp
        omega
      rw [harr]
      simpa [peek, List.getD] using peek_append_right pre rest i

theorem peek_append_left (s tail : List Char) (i : Nat) (h : i < s.length) :
    peek (s ++ tail) i = peek s i := by
  simp [peek, List.getD_eq_getElem?_getD, List.getElem?_append_left h]

theorem peek_cons_succ (c : Char) (rest : List Char) (i : Nat) :
    peek (c :: rest) (i + 1) = peek rest i := by
  simp [peek, List.getD]

theorem peek_of_all {P : Char → Bool} {ds : List Char} (h : ds.all P = true) (i : Nat)
    (hi : i < ds.length) : P (peek ds i) = true := by
  have hp : peek ds i = ds[i] := by
    simp [peek, List.getD_eq_getElem?_getD, List.getElem?_eq_getElem hi]
  rw [hp]
  exact List.all_eq_true.mp h _ (List.getElem_mem hi)

theorem peek_in_seg {input pre s tail : List Char} (hin : input = pre ++ s ++ tail)
    (i : Nat) (hi : i < s.length) :
    peek input (pre.length + i) = peek s i := by
  subst hin
  rw [List.append_assoc, peek_append_right, peek_append_left _ _ _ hi]

/-- The digit-scan loop runs over exactly a block of `n` digits
followed by a non-digit. -/
theorem scanDigitsF_run : ∀ (n k : Nat) (input : List Char) (pos : Nat),
    (∀ i, pos ≤ i → i < pos + n → isDigitChar (peek input i) = true) →
    isDigitChar (peek input (pos + n)) = false →
    n ≤ k →
    scanDigitsF k input pos = pos + n
  | 0, k, input, pos, _, hstop, _ => by
      cases k with
      | zero => rfl
      | succ k =>
          unfold scanDigitsF
          simp only [Nat.add_zero] at hstop
          rw [hstop]
          simp
  | n + 1, k, input, pos, hdig, hstop, hk => by
      cases k with
      | zero => omega
      | succ k =>
          unfold scanDigitsF
          rw [hdig pos (Nat.le_refl pos) (by omega)]
          simp only [if_true]
          have := scanDigitsF_run n k input (pos + 1)
            (fun i hi1 hi2 => hdig i (by omega) (by omega))
            (by
              have harr : pos + 1 + n = pos + (n + 1) := by omega
              rw [harr]
              exact hstop)
            (by omega)
          rw [this]
          omega

theorem scanDigits_run (n : Nat) (input : List Char) (pos : Nat)
    (hdig : ∀ i, pos ≤ i → i < pos + n → isDigitChar (peek input i) = true)
    (hstop : isDigitChar (peek input (pos + n)) = false)
    (hn : pos + n ≤ input.length) :
    scanDigits input pos = pos + n :=
  scanDigitsF_run n input.length input pos hdig hstop (by omega)

/-- The number grammar of the claim, as a decomposition of the token:
an optional single leading minus; an integer part that is a lone `0`
or a nonzero digit followed by zero or more digits; an optional
fractional part `.` followed by one or more digits; an optional
exponent `e`/`E` with an optional sign followed by one or more
digits. -/
def SpecNumber (s : List Char) : Prop :=
  ∃ sgn ip fp ep : List Char,
    s = sgn ++ ip ++ fp ++ ep ∧
    (sgn = [] ∨ sgn = ['-']) ∧
    (ip = ['0'] ∨ ∃ d ds, ip = d :: ds ∧ 0x31 ≤ d.toNat ∧ d.toNat ≤ 0x39 ∧
      ds.all isDigitChar = true) ∧
    (fp = [] ∨ ∃ ds, fp = '.' :: ds ∧ ds ≠ [] ∧ ds.all isDigitChar = true) ∧
    (ep = [] ∨ ∃ ec sg ds, ep = ec :: (sg ++ ds) ∧ (ec = 'e' ∨ ec = 'E') ∧
      (sg = [] ∨ sg = ['+'] ∨ sg = ['-']) ∧ ds ≠ [] ∧ ds.all isDigitChar = true)

theorem slice_digits (input : List Char) {a b : Nat} (hb : b ≤ input.length)
    (h : ∀ i, a ≤ i → i < b → isDigitChar (peek input i) = true) :
    (slice input a b).all isDigitChar = true :=
  slice_all (b - a) input isDigitChar a b (Nat.le_refl _) hb h

theorem slice_ne_nil (input : List Char) {a b : Nat} (hab : a < b)
    (hb : b ≤ input.length) : slice input a b ≠ [] := by
  intro hc
  have := @slice_length input a b hb
  rw [hc] at this
  simp at this
  omega

theorem int_sound {input : List Char} {p1 p2 : Nat}
    (h : parse_number_int input p1 = .ok p2) :
    (slice input p1 p2 = ['0'] ∨
      ∃ d ds, slice input p1 p2 = d :: ds ∧ 0x31 ≤ d.toNat ∧ d.toNat ≤ 0x39 ∧
        ds.all isDigitChar = true) ∧
    p1 < input.length ∧ p1 < p2 ∧ p2 ≤ input.length := by
  unfold parse_number_int at h
  split at h
  · next h0 =>
      injection h with h'
      subst h'
      have hlt := lt_length_of_peek_ne_nul (by rw [h0]; decide)
      refine ⟨.inl ?_, hlt, by omega, by omega⟩
      rw [slice_head input (by omega) hlt, h0]
      rw [slice_self]
  · split at h
    · next h0 hd =>
        injection h with h'
        subst h'
        have hlt := lt_length_of_isDigitChar hd
        have hadv := scanDigits_advance hd
        have hle := scanDigits_le_length input p1 (by omega)
        refine ⟨.inr ⟨peek input p1, slice input (p1 + 1) (scanDigits input p1),
          ?_, ?_, ?_, ?_⟩, hlt, by omega, hle⟩
        · exact slice_head input (by omega) hlt
        · have hd2 := hd
          simp [isDigitChar] at hd2
          have hne : (peek input p1).toNat ≠ 48 := by
            intro heq
            exact h0 (char_eq_of_toNat_eq (by rw [heq]; rfl))
          omega
        · have hd2 := hd
          simp [isDigitChar] at hd2
          omega
        · exact slice_digits input hle
            (fun i hi1 hi2 => scanDigits_digits input p1 i (by omega) hi2)
    · exact absurd h (by simp)

theorem frac_sound {input : List Char} {p2 p3 : Nat}
    (h : parse_number_frac input p2 = .ok p3) (hp2 : p2 ≤ input.length) :
    (slice input p2 p3 = [] ∨
      ∃ ds, slice input p2 p3 = '.' :: ds ∧ ds ≠ [] ∧ ds.all isDigitChar = true) ∧
    p2 ≤ p3 ∧ p3 ≤ input.length := by
  unfold parse_number_frac at h
  split at h
  · split at h
    · next hd =>
        next hdot =>
          injection h with h'
          subst h'
          have hlt := lt_length_of_peek_ne_nul (by rw [hdot]; decide)
          have hadv := scanDigits_advance hd
          have hle := scanDigits_le_length input (p2 + 1) (by omega)
          refine ⟨.inr ⟨slice input (p2 + 1) (scanDigits input (p2 + 1)), ?_, ?_, ?_⟩,
            by omega, hle⟩
          · rw [slice_head input (by omega) hlt, hdot]
          · exact slice_ne_nil input (by omega) hle
          · exact slice_digits input hle
              (fun i hi1 hi2 => scanDigits_digits input (p2 + 1) i (by omega) hi2)
    · exact absurd h (by simp)
  · injection h with h'
    subst h'
    exact ⟨.inl (slice_self input p2), Nat.le_refl _, hp2⟩

theorem exp_sound {input : List Char} {p3 p4 : Nat}
    (h : parse_number_exp input p3 = .ok p4) (hp3 : p3 ≤ input.length) :
    (slice input p3 p4 = [] ∨
      ∃ ec sg ds, slice input p3 p4 = ec :: (sg ++ ds) ∧ (ec = 'e' ∨ ec = 'E') ∧
        (sg = [] ∨ sg = ['+'] ∨ sg = ['-']) ∧ ds ≠ [] ∧ ds.all isDigitChar = true) ∧
    p3 ≤ p4 ∧ p4 ≤ input.length := by
  unfold parse_number_exp at h
  split at h
  · next he =>
      have hlt3 : p3 < input.length :=
        lt_length_of_peek_ne_nul (by rcases he with he | he <;> rw [he] <;> decide)
      by_cases hs : peek input (p3 + 1) = '+' ∨ peek input (p3 + 1) = '-'
      · simp only [if_pos hs] at h
        split at h
        · next hd =>
            injection h with h'
            subst h'
            have hlt4 := lt_length_of_isDigitChar hd
            have hlts : p3 + 1 < input.length := by omega
            have hadv := scanDigits_advance hd
            have hle := scanDigits_le_length input (p3 + 2) (by omega)
            refine ⟨.inr ⟨peek input p3, [peek input (p3 + 1)],
              slice input (p3 + 2) (scanDigits input (p3 + 2)), ?_, he, ?_, ?_, ?_⟩,
              by omega, hle⟩
            · rw [slice_head input (by omega) hlt3]
              congr 1
              rw [slice_head input (by omega) hlts]
              simp
            · rcases hs with hs | hs
              · exact .inr (.inl (by rw [hs]))
              · exact .inr (.inr (by rw [hs]))
            · exact slice_ne_nil input (by omega) hle
            · exact slice_digits input hle
                (fun i hi1 hi2 => scanDigits_digits input (p3 + 2) i (by omega) hi2)
        · exact absurd h (by simp)
      · simp only [if_neg hs] at h
        split at h
        · next hd =>
            injection h with h'
            subst h'
            have hlt4 := lt_length_of_isDigitChar hd
            have hadv := scanDigits_advance hd
            have hle := scanDigits_le_length input (p3 + 1) (by omega)
            refine ⟨.inr ⟨peek input p3, [],
              slice input (p3 + 1) (scanDigits input (p3 + 1)), ?_, he, .inl rfl, ?_, ?_⟩,
              by omega, hle⟩
            · rw [slice_head input (by omega) hlt3]
              simp
            · exact slice_ne_nil input (by omega) hle
            · exact slice_digits input hle
                (fun i hi1 hi2 => scanDigits_digits input (p3 + 1) i (by omega) hi2)
        · exact absurd h (by simp)
  · injection h with h'
    subst h'
    exact ⟨.inl (slice_self input p3), Nat.le_refl _, hp3⟩



theorem parse_number_sound {input : List Char} {pos : Nat} {v : Json} {p : Nat}
    (h : parse_number input pos = .ok (v, p)) :
    SpecNumber (slice input pos p) ∧ v = Json.num (stodQ (slice input pos p)) ∧
    pos ≤ p ∧ p ≤ input.length := by
  unfold parse_number at h
  simp only [] at h
  cases hint : parse_number_int input (if peek input pos = '-' then pos + 1 else pos) with
  | error e => rw [hint] at h; exact absurd h (by simp)
  | ok p2 =>
    rw [hint] at h
    simp only [] at h
    cases hfrac : parse_number_frac input p2 with
    | error e => rw [hfrac] at h; exact absurd h (by simp)
    | ok p3 =>
      rw [hfrac] at h
      simp only [] at h
      cases hexp : parse_number_exp input p3 with
      | error e => rw [hexp] at h; exact absurd h (by simp)
      | ok p4 =>
        rw [hexp] at h
        simp only [] at h
        injection h with h'
        have hv : v = Json.num (stodQ (slice input pos p4)) :=
          (congrArg Prod.fst h').symm
        have hpp : p = p4 := (congrArg Prod.snd h').symm
        rw [hpp]
        have hi := int_sound hint
        have hf := frac_sound hfrac hi.2.2.2
        have he := exp_sound hexp hf.2.2
        set p1 := if peek input pos = '-' then pos + 1 else pos with hp1def
        have hsgn : (slice input pos p1 = [] ∨ slice input pos p1 = ['-']) ∧
            pos ≤ p1 := by
          by_cases hm : peek input pos = '-'
          · have hlt := lt_length_of_peek_ne_nul (by rw [hm]; decide)
            rw [hp1def, if_pos hm]
            refine ⟨.inr ?_, by omega⟩
            rw [slice_head input (by omega) hlt, hm]
            rw [slice_self]
          · rw [hp1def, if_neg hm]
            exact ⟨.inl (slice_self input pos), Nat.le_refl _⟩
        refine ⟨⟨slice input pos p1, slice input p1 p2, slice input p2 p3,
          slice input p3 p4, ?_, hsgn.1, hi.1, hf.1, he.1⟩, hv, by omega, by omega⟩
        rw [slice_split input (by omega : pos ≤ p1) (by omega : p1 ≤ p4),
          slice_split input (by omega : p1 ≤ p2) (by omega : p2 ≤ p4),
          slice_split input (by omega : p2 ≤ p3) (by omega : p3 ≤ p4)]
        simp [List.append_assoc]



theorem int_complete_zero {input : List Char} {p1 : Nat} (h0 : peek input p1 = '0') :
    parse_number_int input p1 = .ok (p1 + 1) := by
  simp [parse_number_int, h0]

theorem int_complete_digit {input : List Char} {p1 n : Nat}
    (hd1 : 0x31 ≤ (peek input p1).toNat) (hd2 : (peek input p1).toNat ≤ 0x39)
    (hdig : ∀ i, p1 + 1 ≤ i → i < p1 + 1 + n → isDigitChar (peek input i) = true)
    (hstop : isDigitChar (peek input (p1 + 1 + n)) = false)
    (hlen : p1 + 1 + n ≤ input.length) :
    parse_number_int input p1 = .ok (p1 + 1 + n) := by
  have hne : peek input p1 ≠ '0' := by
    intro hc
    rw [hc] at hd1
    exact absurd hd1 (by decide)
  have hdd : isDigitChar (peek input p1) = true := by
    simp [isDigitChar]
    omega
  have hrun : scanDigits input p1 = p1 + (1 + n) := by
    apply scanDigits_run (1 + n) input p1
    · intro i hi1 hi2
      rcases Nat.eq_or_lt_of_le hi1 with hi | hi
      · rw [← hi]; exact hdd
      · exact hdig i (by omega) (by omega)
    · have : p1 + (1 + n) = p1 + 1 + n := by omega
      rw [this]; exact hstop
    · omega
  simp [parse_number_int, hne, hdd, hrun]
  omega

theorem frac_complete_none {input : List Char} {p2 : Nat}
    (h : peek input p2 ≠ '.') : parse_number_frac input p2 = .ok p2 := by
  simp [parse_number_frac, h]

theorem frac_complete_some {input : List Char} {p2 n : Nat} (hn : 0 < n)
    (hdot : peek input p2 = '.')
    (hdig : ∀ i, p2 + 1 ≤ i → i < p2 + 1 + n → isDigitChar (peek input i) = true)
    (hstop : isDigitChar (peek input (p2 + 1 + n)) = false)
    (hlen : p2 + 1 + n ≤ input.length) :
    parse_number_frac input p2 = .ok (p2 + 1 + n) := by
  have hd1 : isDigitChar (peek input (p2 + 1)) = true :=
    hdig (p2 + 1) (Nat.le_refl _) (by omega)
  have hrun : scanDigits input (p2 + 1) = (p2 + 1) + n := by
    apply scanDigits_run n input (p2 + 1)
    · intro i hi1 hi2
      exact hdig i hi1 (by omega)
    · have : p2 + 1 + n = p2 + 1 + n := rfl
      exact hstop
    · omega
  simp [parse_number_frac, hdot, hd1, hrun]

theorem exp_complete_none {input : List Char} {p3 : Nat}
    (h1 : peek input p3 ≠ 'e') (h2 : peek input p3 ≠ 'E') :
    parse_number_exp input p3 = .ok p3 := by
  simp [parse_number_exp, h1, h2]

theorem exp_complete_sign {input : List Char} {p3 n : Nat} (hn : 0 < n)
    (he : peek input p3 = 'e' ∨ peek input p3 = 'E')
    (hs : peek input (p3 + 1) = '+' ∨ peek input (p3 + 1) = '-')
    (hdig : ∀ i, p3 + 2 ≤ i → i < p3 + 2 + n → isDigitChar (peek input i) = true)
    (hstop : isDigitChar (peek input (p3 + 2 + n)) = false)
    (hlen : p3 + 2 + n ≤ input.length) :
    parse_number_exp input p3 = .ok (p3 + 2 + n) := by
  have hd1 : isDigitChar (peek input (p3 + 2)) = true :=
    hdig (p3 + 2) (Nat.le_refl _) (by omega)
  have hrun : scanDigits input (p3 + 2) = (p3 + 2) + n := by
    apply scanDigits_run n input (p3 + 2)
    · intro i hi1 hi2
      exact hdig i hi1 (by omega)
    · exact hstop
    · omega
  simp [parse_number_exp, he, hs, hd1, hrun]

theorem exp_complete_nosign {input : List Char} {p3 n : Nat} (hn : 0 < n)
    (he : peek input p3 = 'e' ∨ peek input p3 = 'E')
    (hs : ¬(peek input (p3 + 1) = '+' ∨ peek input (p3 + 1) = '-'))
    (hdig : ∀ i, p3 + 1 ≤ i → i < p3 + 1 + n → isDigitChar (peek input i) = true)
    (hstop : isDigitChar (peek input (p3 + 1 + n)) = false)
    (hlen : p3 + 1 + n ≤ input.length) :
    parse_number_exp input p3 = .ok (p3 + 1 + n) := by
  have hd1 : isDigitChar (peek input (p3 + 1)) = true :=
    hdig (p3 + 1) (Nat.le_refl _) (by omega)
  have hrun : scanDigits input (p3 + 1) = (p3 + 1) + n := by
    apply scanDigits_run n input (p3 + 1)
    · intro i hi1 hi2
      exact hdig i hi1 (by omega)
    · exact hstop
    · omega
  simp [parse_number_exp, he, hs, hd1, hrun]



theorem peek_cons_zero (c : Char) (l : List Char) : peek (c :: l) 0 = c := rfl

theorem parse_number_complete (pre s tail : List Char) (hspec : SpecNumber s)
    (hd : isDigitChar (peek (pre ++ s ++ tail) (pre.length + s.length)) = false)
    (hdot : peek (pre ++ s ++ tail) (pre.length + s.length) ≠ '.')
    (hee : peek (pre ++ s ++ tail) (pre.length + s.length) ≠ 'e')
    (hEE : peek (pre ++ s ++ tail) (pre.length + s.length) ≠ 'E') :
    parse_number (pre ++ s ++ tail) pre.length =
      .ok (Json.num (stodQ s), pre.length + s.length) := by
  obtain ⟨sgn, ip, fp, ep, hdec, hsgn, hip, hfp, hep⟩ := hspec
  have hslen : s.length = sgn.length + ip.length + fp.length + ep.length := by
    rw [hdec]; simp; omega
  have hiplen : 0 < ip.length := by
    rcases hip with h | ⟨d, ds, h, _, _, _⟩ <;> simp [h]
  have hlenin : (pre ++ s ++ tail).length = pre.length + s.length + tail.length := by
    simp only [List.length_append]
  have hsgnlen : sgn.length ≤ 1 := by
    rcases hsgn with h | h <;> simp [h]
  -- peek transfer into each component
  have hpeeksgn : ∀ j, j < sgn.length →
      peek (pre ++ s ++ tail) (pre.length + j) = peek sgn j := by
    intro j hj
    have hre : pre ++ s ++ tail = pre ++ sgn ++ (ip ++ fp ++ ep ++ tail) := by
      rw [hdec]; simp
    exact peek_in_seg hre j hj
  have hpeekip : ∀ j, j < ip.length →
      peek (pre ++ s ++ tail) (pre.length + sgn.length + j) = peek ip j := by
    intro j hj
    have hre : pre ++ s ++ tail = (pre ++ sgn) ++ ip ++ (fp ++ ep ++ tail) := by
      rw [hdec]; simp
    have h2 := peek_in_seg hre j hj
    simpa using h2
  have hpeekfp : ∀ j, j < fp.length →
      peek (pre ++ s ++ tail) (pre.length + sgn.length + ip.length + j) = peek fp j := by
    intro j hj
    have hre : pre ++ s ++ tail = (pre ++ sgn ++ ip) ++ fp ++ (ep ++ tail) := by
      rw [hdec]; simp
    have h2 := peek_in_seg hre j hj
    have h3 : (pre ++ sgn ++ ip).length + j = pre.length + sgn.length + ip.length + j := by
      simp only [List.length_append]
    rw [h3] at h2
    exact h2
  have hpeekep : ∀ j, j < ep.length →
      peek (pre ++ s ++ tail)
        (pre.length + sgn.length + ip.length + fp.length + j) = peek ep j := by
    intro j hj
    have hre : pre ++ s ++ tail = (pre ++ sgn ++ ip ++ fp) ++ ep ++ tail := by
      rw [hdec]; simp
    have h2 := peek_in_seg hre j hj
    have h3 : (pre ++ sgn ++ ip ++ fp).length + j =
        pre.length + sgn.length + ip.length + fp.length + j := by
      simp only [List.length_append]
    rw [h3] at h2
    exact h2
  -- Stage 1: the optional sign
  have hp1 : (if peek (pre ++ s ++ tail) pre.length = '-' then pre.length + 1
      else pre.length) = pre.length + sgn.length := by
    rcases hsgn with h0 | h0
    · have hpk : peek (pre ++ s ++ tail) pre.length = peek ip 0 := by
        have h2 := hpeekip 0 hiplen
        rw [h0] at h2
        simpa using h2
      have hnm : peek (pre ++ s ++ tail) pre.length ≠ '-' := by
        rw [hpk]
        rcases hip with h | ⟨d, ds, h, hd1, hd2, _⟩
        · rw [h]
          decide
        · rw [h, peek_cons_zero]
          intro hc
          rw [hc] at hd1
          exact absurd hd1 (by decide)
      rw [if_neg hnm, h0]
      simp
    · have hpk : peek (pre ++ s ++ tail) pre.length = '-' := by
        have h2 := hpeeksgn 0 (by rw [h0]; simp)
        rw [h0] at h2
        simpa using h2
      rw [if_pos hpk, h0]
      simp
  -- The byte right after the integer part is not a digit
  have hafterip : isDigitChar
      (peek (pre ++ s ++ tail) (pre.length + sgn.length + ip.length)) = false := by
    rcases hfp with h0 | ⟨fs, h0, hfs1, hfs2⟩
    · rcases hep with h1 | ⟨ec, sg2, ds2, h1, hec, hsg2, hne2, hds2⟩
      · have hq : pre.length + sgn.length + ip.length = pre.length + s.length := by
          rw [hslen, h0, h1]
          simp
          omega
        rw [hq]
        exact hd
      · have hpk : peek (pre ++ s ++ tail) (pre.length + sgn.length + ip.length) =
            peek ep 0 := by
          have h2 := hpeekep 0 (by rw [h1]; simp)
          rw [h0] at h2
          simpa using h2
        rw [hpk, h1, peek_cons_zero]
        rcases hec with hec | hec <;> rw [hec] <;> decide
    · have hpk : peek (pre ++ s ++ tail) (pre.length + sgn.length + ip.length) =
          peek fp 0 := by
        have h2 := hpeekfp 0 (by rw [h0]; simp)
        simpa using h2
      rw [hpk, h0, peek_cons_zero]
      decide
  -- Stage 2: the integer part
  have hint : parse_number_int (pre ++ s ++ tail) (pre.length + sgn.length) =
      .ok (pre.length + sgn.length + ip.length) := by
    rcases hip with h0 | ⟨d, ds, h0, hd1, hd2, hds⟩
    · have hpk : peek (pre ++ s ++ tail) (pre.length + sgn.length) = '0' := by
        have h2 := hpeekip 0 hiplen
        rw [h0] at h2
        simpa using h2
      have h3 := int_complete_zero hpk
      rw [h0]
      simpa using h3
    · have hpk : peek (pre ++ s ++ tail) (pre.length + sgn.length) = d := by
        have h2 := hpeekip 0 hiplen
        rw [h0] at h2
        simpa using h2
      have hdig2 : ∀ i, pre.length + sgn.length + 1 ≤ i →
          i < pre.length + sgn.length + 1 + ds.length →
          isDigitChar (peek (pre ++ s ++ tail) i) = true := by
        intro i hi1 hi2
        have hj : i = pre.length + sgn.length +
            ((i - (pre.length + sgn.length + 1)) + 1) := by
          omega
        rw [hj]
        have h4 := hpeekip ((i - (pre.length + sgn.length + 1)) + 1)
          (by rw [h0]; simp; omega)
        rw [h4, h0, peek_cons_succ]
        exact peek_of_all hds _ (by omega)
      have hstop2 : isDigitChar (peek (pre ++ s ++ tail)
          (pre.length + sgn.length + 1 + ds.length)) = false := by
        have hq : pre.length + sgn.length + 1 + ds.length =
            pre.length + sgn.length + ip.length := by
          rw [h0]
          simp only [List.length_cons]
          omega
        rw [hq]
        exact hafterip
      have hlen2 : pre.length + sgn.length + 1 + ds.length ≤
          (pre ++ s ++ tail).length := by
        rw [hlenin, hslen, h0]
        simp only [List.length_cons]
        omega
      have h3 := @int_complete_digit (pre ++ s ++ tail)
        (pre.length + sgn.length) ds.length
        (by rw [hpk]; exact hd1) (by rw [hpk]; exact hd2) hdig2 hstop2 hlen2
      have hq2 : pre.length + sgn.length + 1 + ds.length =
          pre.length + sgn.length + ip.length := by
        rw [h0]
        simp only [List.length_cons]
        omega
      rw [h3, hq2]
  -- The byte right after the fractional part is not a digit
  have hafterfp : isDigitChar (peek (pre ++ s ++ tail)
      (pre.length + sgn.length + ip.length + fp.length)) = false := by
    rcases hep with h1 | ⟨ec, sg2, ds2, h1, hec, hsg2, hne2, hds2⟩
    · have hq : pre.length + sgn.length + ip.length + fp.length =
          pre.length + s.length := by
        rw [hslen, h1]
        simp
        omega
      rw [hq]
      exact hd
    · have hpk : peek (pre ++ s ++ tail)
          (pre.length + sgn.length + ip.length + fp.length) = peek ep 0 := by
        have h2 := hpeekep 0 (by rw [h1]; simp)
        simpa using h2
      rw [hpk, h1, peek_cons_zero]
      rcases hec with hec | hec <;> rw [hec] <;> decide
  -- Stage 3: the fractional part
  have hfrac : parse_number_frac (pre ++ s ++ tail)
      (pre.length + sgn.length + ip.length) =
      .ok (pre.length + sgn.length + ip.length + fp.length) := by
    rcases hfp with h0 | ⟨fs, h0, hfs1, hfs2⟩
    · have hne : peek (pre ++ s ++ tail) (pre.length + sgn.length + ip.length) ≠ '.' := by
        rcases hep with h1 | ⟨ec, sg2, ds2, h1, hec, hsg2, hne2, hds2⟩
        · have hq : pre.length + sgn.length + ip.length = pre.length + s.length := by
            rw [hslen, h0, h1]
            simp
            omega
          rw [hq]
          exact hdot
        · have hpk : peek (pre ++ s ++ tail) (pre.length + sgn.length + ip.length) =
              peek ep 0 := by
            have h2 := hpeekep 0 (by rw [h1]; simp)
            rw [h0] at h2
            simpa using h2
          rw [hpk, h1, peek_cons_zero]
          rcases hec with hec | hec <;> rw [hec] <;> decide
      have h3 := frac_complete_none hne
      rw [h0]
      simpa using h3
    · have hpkdot : peek (pre ++ s ++ tail) (pre.length + sgn.length + ip.length) = '.' := by
        have h2 := hpeekfp 0 (by rw [h0]; simp)
        rw [h0] at h2
        simpa using h2
      have hdig2 : ∀ i, pre.length + sgn.length + ip.length + 1 ≤ i →
          i < pre.length + sgn.length + ip.length + 1 + fs.length →
          isDigitChar (peek (pre ++ s ++ tail) i) = true := by
        intro i hi1 hi2
        have hj : i = pre.length + sgn.length + ip.length +
            ((i - (pre.length + sgn.length + ip.length + 1)) + 1) := by
          omega
        rw [hj]
        have h4 := hpeekfp ((i - (pre.length + sgn.length + ip.length + 1)) + 1)
          (by rw [h0]; simp; omega)
        rw [h4, h0, peek_cons_succ]
        exact peek_of_all hfs2 _ (by omega)
      have hstop2 : isDigitChar (peek (pre ++ s ++ tail)
          (pre.length + sgn.length + ip.length + 1 + fs.length)) = false := by
        have hq : pre.length + sgn.length + ip.length + 1 + fs.length =
            pre.length + sgn.length + ip.length + fp.length := by
          rw [h0]
          simp only [List.length_cons]
          omega
        rw [hq]
        exact hafterfp
      have hlen2 : pre.length + sgn.length + ip.length + 1 + fs.length ≤
          (pre ++ s ++ tail).length := by
        rw [hlenin, hslen, h0]
        simp only [List.length_cons]
        omega
      have h3 := @frac_complete_some (pre ++ s ++ tail)
        (pre.length + sgn.length + ip.length) fs.length
        (by simp [List.length_pos, hfs1]) hpkdot hdig2 hstop2 hlen2
      have hq2 : pre.length + sgn.length + ip.length + 1 + fs.length =
          pre.length + sgn.length + ip.length + fp.length := by
        rw [h0]
        simp only [List.length_cons]
        omega
      rw [h3, hq2]
  -- Stage 4: the exponent
  have hexp : parse_number_exp (pre ++ s ++ tail)
      (pre.length + sgn.length + ip.length + fp.length) =
      .ok (pre.length + sgn.length + ip.length + fp.length + ep.length) := by
    rcases hep with h1 | ⟨ec, sg2, ds2, h1, hec, hsg2, hne2, hds2⟩
    · have hq : pre.length + sgn.length + ip.length + fp.length =
          pre.length + s.length := by
        rw [hslen, h1]
        simp
        omega
      have hne1 : peek (pre ++ s ++ tail)
          (pre.length + sgn.length + ip.length + fp.length) ≠ 'e' := by
        rw [hq]
        exact hee
      have hne2b : peek (pre ++ s ++ tail)
          (pre.length + sgn.length + ip.length + fp.length) ≠ 'E' := by
        rw [hq]
        exact hEE
      have h3 := exp_complete_none hne1 hne2b
      rw [h1]
      simpa using h3
    · have hds2len : 0 < ds2.length := List.length_pos.mpr hne2
      have hpkec : peek (pre ++ s ++ tail)
          (pre.length + sgn.length + ip.length + fp.length) = ec := by
        have h2 := hpeekep 0 (by rw [h1]; simp)
        rw [h1] at h2
        simpa using h2
      have he2 : peek (pre ++ s ++ tail)
            (pre.length + sgn.length + ip.length + fp.length) = 'e' ∨
          peek (pre ++ s ++ tail)
            (pre.length + sgn.length + ip.length + fp.length) = 'E' := by
        rw [hpkec]
        exact hec
      rcases hsg2 with hs0 | hs0
      · -- no explicit sign in the exponent
        have heplen : ep.length = 1 + ds2.length := by
          rw [h1, hs0]
          simp
          omega
        have hdig0 : isDigitChar (peek (pre ++ s ++ tail)
            (pre.length + sgn.length + ip.length + fp.length + 1)) = true := by
          have h4 := hpeekep 1 (by rw [heplen]; omega)
          rw [h1, hs0] at h4
          simp only [List.nil_append] at h4
          rw [h4, peek_cons_succ]
          exact peek_of_all hds2 0 hds2len
        have hnosign : ¬(peek (pre ++ s ++ tail)
              (pre.length + sgn.length + ip.length + fp.length + 1) = '+' ∨
            peek (pre ++ s ++ tail)
              (pre.length + sgn.length + ip.length + fp.length + 1) = '-') := by
          intro hc
          rcases hc with hc | hc <;> rw [hc] at hdig0 <;>
            exact absurd hdig0 (by decide)
        have hdig2 : ∀ i, pre.length + sgn.length + ip.length + fp.length + 1 ≤ i →
            i < pre.length + sgn.length + ip.length + fp.length + 1 + ds2.length →
            isDigitChar (peek (pre ++ s ++ tail) i) = true := by
          intro i hi1 hi2
          have hj : i = pre.length + sgn.length + ip.length + fp.length +
              ((i - (pre.length + sgn.length + ip.length + fp.length + 1)) + 1) := by
            omega
          rw [hj]
          have h4 := hpeekep
            ((i - (pre.length + sgn.length + ip.length + fp.length + 1)) + 1)
            (by rw [heplen]; omega)
          rw [h1, hs0] at h4
          simp only [List.nil_append] at h4
          rw [h4, peek_cons_succ]
          exact peek_of_all hds2 _ (by omega)
        have hstop2 : isDigitChar (peek (pre ++ s ++ tail)
            (pre.length + sgn.length + ip.length + fp.length + 1 + ds2.length)) =
            false := by
          have hq2 : pre.length + sgn.length + ip.length + fp.length + 1 +
              ds2.length = pre.length + s.length := by
            omega
          rw [hq2]
          exact hd
        have hlen2 : pre.length + sgn.length + ip.length + fp.length + 1 +
            ds2.length ≤ (pre ++ s ++ tail).length := by
          rw [hlenin]
          omega
        have h3 := @exp_complete_nosign (pre ++ s ++ tail)
          (pre.length + sgn.length + ip.length + fp.length) ds2.length
          hds2len he2 hnosign hdig2 hstop2 hlen2
        have hq3 : pre.length + sgn.length + ip.length + fp.length + 1 +
            ds2.length =
            pre.length + sgn.length + ip.length + fp.length + ep.length := by
          omega
        rw [h3, hq3]
      · -- an explicit sign in the exponent
        obtain ⟨sc, hsc, hscpm⟩ : ∃ sc, sg2 = [sc] ∧ (sc = '+' ∨ sc = '-') := by
          rcases hs0 with h | h
          · exact ⟨'+', h, .inl rfl⟩
          · exact ⟨'-', h, .inr rfl⟩
        have heplen : ep.length = 2 + ds2.length := by
          rw [h1, hsc]
          simp only [List.cons_append, List.nil_append, List.length_cons]
          omega
        have hpksign : peek (pre ++ s ++ tail)
            (pre.length + sgn.length + ip.length + fp.length + 1) = sc := by
          have h4 := hpeekep 1 (by rw [heplen]; omega)
          rw [h1, hsc] at h4
          simp only [List.cons_append, List.nil_append] at h4
          rw [h4, peek_cons_succ]
          rfl
        have hsign : peek (pre ++ s ++ tail)
              (pre.length + sgn.length + ip.length + fp.length + 1) = '+' ∨
            peek (pre ++ s ++ tail)
              (pre.length + sgn.length + ip.length + fp.length + 1) = '-' := by
          rw [hpksign]
          exact hscpm
        have hdig2 : ∀ i, pre.length + sgn.length + ip.length + fp.length + 2 ≤ i →
            i < pre.length + sgn.length + ip.length + fp.length + 2 + ds2.length →
            isDigitChar (peek (pre ++ s ++ tail) i) = true := by
          intro i hi1 hi2
          have hj : i = pre.length + sgn.length + ip.length + fp.length +
              (((i - (pre.length + sgn.length + ip.length + fp.length + 2)) + 1) +
                1) := by
            omega
          rw [hj]
          have h4 := hpeekep
            (((i - (pre.length + sgn.length + ip.length + fp.length + 2)) + 1) + 1)
            (by rw [heplen]; omega)
          rw [h1, hsc] at h4
          simp only [List.cons_append, List.nil_append] at h4
          rw [h4, peek_cons_succ, peek_cons_succ]
          exact peek_of_all hds2 _ (by omega)
        have hstop2 : isDigitChar (peek (pre ++ s ++ tail)
            (pre.length + sgn.length + ip.length + fp.length + 2 + ds2.length)) =
            false := by
          have hq2 : pre.length + sgn.length + ip.length + fp.length + 2 +
              ds2.length = pre.length + s.length := by
            omega
          rw [hq2]
          exact hd
        have hlen2 : pre.length + sgn.length + ip.length + fp.length + 2 +
            ds2.length ≤ (pre ++ s ++ tail).length := by
          rw [hlenin]
          omega
        have h3 := @exp_complete_sign (pre ++ s ++ tail)
          (pre.length + sgn.length + ip.length + fp.length) ds2.length
          hds2len he2 hsign hdig2 hstop2 hlen2
        have hq3 : pre.length + sgn.length + ip.length + fp.length + 2 +
            ds2.length =
            pre.length + sgn.length + ip.length + fp.length + ep.length := by
          omega
        rw [h3, hq3]
  -- glue the four stages together
  have hqend : pre.length + sgn.length + ip.length + fp.length + ep.length =
      pre.length + s.length := by
    omega
  unfold parse_number
  simp only []
  rw [hp1, hint]
  simp only []
  rw [hfrac]
  simp only []
  rw [hexp]
  simp only []
  rw [hqend, slice_append]

/-! ### The claims -/

/-- **C2**: the number parser accepts exactly the claimed grammar —
soundness: every successfully consumed token decomposes as optional
`-`, lone `0` or nonzero digit plus digit run, optional `.` plus a
nonempty digit run, optional `e`/`E` plus optional sign plus a
nonempty digit run, and the produced value is `std::stod` of that
token; completeness: wherever such a token sits in the input followed
by a byte that cannot extend it, the number parser consumes exactly
the token and succeeds.  Consequently `parse "-0.5"` is the number
−0.5, `parse "1e10"` is 1e10, and `"007"`, `".5"`, `"5."`, `"+5"`
each fail with a `ParseError`. -/
theorem number_grammar_spec (input : List Char) (pos : Nat) :
    (∀ v p, parse_number input pos = .ok (v, p) →
      SpecNumber (slice input pos p) ∧ v = Json.num (stodQ (slice input pos p)) ∧
      pos ≤ p ∧ p ≤ input.length) ∧
    (∀ pre s tail, SpecNumber s → input = pre ++ s ++ tail → pos = pre.length →
      isDigitChar (peek input (pos + s.length)) = false →
      peek input (pos + s.length) ≠ '.' →
      peek input (pos + s.length) ≠ 'e' →
      peek input (pos + s.length) ≠ 'E' →
      parse_number input pos = .ok (Json.num (stodQ s), pos + s.length)) ∧
    parse ("-0.5".toList) = .ok (Json.num (mkRat (-1) 2)) ∧
    parse ("1e10".toList) = .ok (Json.num (mkRat 10000000000 1)) ∧
    parse ("007".toList) = .error ⟨"unexpected characters after JSON", 1⟩ ∧
    parse (".5".toList) = .error ⟨"unexpected character", 0⟩ ∧
    parse ("5.".toList) = .error ⟨"invalid number", 2⟩ ∧
    parse ("+5".toList) = .error ⟨"unexpected character", 0⟩ := by
  refine ⟨?_, ?_, by decide, by decide, by decide, by decide, by decide, by decide⟩
  · intro v p h
    exact parse_number_sound h
  · intro pre s tail hspec hin hpos hd hdot hee hEE
    subst hin
    subst hpos
    exact parse_number_complete pre s tail hspec hd hdot hee hEE

theorem number_grammar_spec_witness :
    parse_number ['1', '2', 'x'] 0 = .ok (Json.num (stodQ ['1', '2']), 2) :=
  (number_grammar_spec ['1', '2', 'x'] 0).2.1 [] ['1', '2'] ['x']
    ⟨[], ['1', '2'], [], [], rfl, .inl rfl,
      .inr ⟨'1', ['2'], rfl, by decide, by decide, by decide⟩, .inl rfl, .inl rfl⟩
    rfl rfl (by decide) (by decide) (by decide) (by decide)

/-- **C1**: the claimed round trip `parse (dump (parse T) i) = parse T`
(up to semantic equality) fails on the valid JSON text `"\u0000"`:
parsing it yields the one-byte string containing NUL, `dump` emits
that byte unescaped for every indent, and re-parsing the dumped text
stops at the raw NUL — the string loop reads it as the end-of-input
sentinel — with the `unterminated string` error at offset 1. -/
theorem parse_dump_roundtrip_failure :
    parse (['"', '\\', 'u', '0', '0', '0', '0', '"']) = .ok (Json.str [Char.ofNat 0]) ∧
    (∀ i : Int, dump (Json.str [Char.ofNat 0]) i = ['"', Char.ofNat 0, '"']) ∧
    parse (['"', Char.ofNat 0, '"']) = .error ⟨"unterminated string", 1⟩ := by
  refine ⟨by decide, ?_, by decide⟩
  intro i
  rfl

/-- **C3**: on an Object, const key indexing of an absent key fails
(`unordered_map::at` throws, nothing is inserted — the const
operation returns no changed object at all), while mutable key
indexing inserts a Null entry for the key, hands back that Null, and
grows `size()` by one; for a present key both forms return the mapped
value and the mutable form leaves the object unchanged. -/
theorem object_indexing_spec (kvs : List (List Char × Json)) (k : List Char) :
    (objAt kvs k = none →
      constIndexKey (Json.obj kvs) k = .error "unordered_map::at key not found" ∧
      mutIndexKey (Json.obj kvs) k = .ok (Json.obj (kvs ++ [(k, Json.null)]), Json.null) ∧
      size (Json.obj (kvs ++ [(k, Json.null)])) = .ok (kvs.length + 1) ∧
      size (Json.obj kvs) = .ok kvs.length) ∧
    (∀ v, objAt kvs k = some v →
      constIndexKey (Json.obj kvs) k = .ok v ∧
      mutIndexKey (Json.obj kvs) k = .ok (Json.obj kvs, v)) := by
  constructor
  · intro h
    simp [constIndexKey, mutIndexKey, as_object, h, size]
  · intro v h
    simp [constIndexKey, mutIndexKey, as_object, h]

theorem object_indexing_spec_witness :
    constIndexKey (Json.obj []) ['a'] = .error "unordered_map::at key not found" ∧
    mutIndexKey (Json.obj []) ['a'] = .ok (Json.obj [(['a'], Json.null)], Json.null) ∧
    constIndexKey (Json.obj [(['b'], Json.num 7)]) ['b'] = .ok (Json.num 7) :=
  ⟨((object_indexing_spec [] ['a']).1 rfl).1,
   ((object_indexing_spec [] ['a']).1 rfl).2.1,
   ((object_indexing_spec [(['b'], Json.num 7)] ['b']).2 (Json.num 7) rfl).1⟩

/-- **C4**: storing a key that is already present overwrites its
value (`obj[key] = value` on the map), so a duplicated object key
takes the value of its last occurrence; in particular
`{"a":1,"a":2}` parses to a one-entry object mapping `"a"` to 2. -/
theorem duplicate_keys_last_wins :
    (∀ (kvs : List (List Char × Json)) (k : List Char) (v : Json),
        objAt (objSet kvs k v) k = some v) ∧
    parse ['{', '"', 'a', '"', ':', '1', ',', '"', 'a', '"', ':', '2', '}'] =
      .ok (Json.obj [(['a'], Json.num 2)]) ∧
    size (Json.obj [(['a'], Json.num 2)]) = .ok 1 ∧
    constIndexKey (Json.obj [(['a'], Json.num 2)]) ['a'] = .ok (Json.num 2) := by
  refine ⟨?_, by decide, by decide, by decide⟩
  intro kvs k v
  induction kvs with
  | nil => simp [objSet, objAt]
  | cons kv rest ih =>
      obtain ⟨k2, v2⟩ := kv
      by_cases h : k2 = k
      · simp [objSet, h, objAt]
      · simp [objSet, h, objAt, ih]

/-- **C7** (counterexample): the vertical tab 0x0B and the form feed
0x0C are also skipped as whitespace — `skip_whitespace` uses
`std::isspace` — so `parse` accepts them before a token, where the
claimed whitespace set {space, tab, CR, LF} would make the parse fail
with `unexpected character`. -/
theorem whitespace_set_counterexample :
    parse ([Char.ofNat 0x0B, '1']) = .ok (Json.num 1) ∧
    parse ([Char.ofNat 0x0C, '1']) = .ok (Json.num 1) := by
  exact ⟨by decide, by decide⟩

/-- **C7** (amended): the set of bytes the parser skips as whitespace
is exactly the six C-locale `isspace` characters: space (0x20), tab
(0x09), line feed (0x0A), vertical tab (0x0B), form feed (0x0C) and
carriage return (0x0D). -/
theorem whitespace_set_amended (c : Char) (rest : List Char) :
    0 < skip_whitespace (c :: rest) 0 ↔
      c.toNat ∈ [0x20, 0x09, 0x0A, 0x0B, 0x0C, 0x0D] := by
  have key : 0 < skip_whitespace (c :: rest) 0 ↔ isCSpace c = true := by
    unfold skip_whitespace
    simp only [List.length_cons]
    rw [skipWsF]
    have hp : peek (c :: rest) 0 = c := rfl
    cases hcs : isCSpace c with
    | false => simp [hp, hcs]
    | true =>
        rw [if_pos ⟨by simp, by rw [hp]; exact hcs⟩]
        simp only [iff_true]
        exact Nat.lt_of_lt_of_le (by omega) (skipWsF_le rest.length (c :: rest) (0 + 1))
  rw [key]
  simp [isCSpace]
  omega

theorem whitespace_set_amended_witness :
    (0 < skip_whitespace [Char.ofNat 0x0B, '1'] 0) ∧
    ¬(0 < skip_whitespace ['1'] 0) :=
  ⟨(whitespace_set_amended (Char.ofNat 0x0B) ['1']).mpr (by decide),
   fun h => by
     have := (whitespace_set_amended '1' []).mp h
     revert this
     decide⟩

/-- **C8**: `dump` escapes exactly the five characters quote,
backslash, newline, carriage return and tab in a String, passes every
other byte through unchanged, and a String serializes as the quoted
concatenation of its per-byte escapes; the string parsed from
`"a\nb"` (holding a literal newline) dumps back to the two characters
`\n`. -/
theorem dump_string_escapes (c : Char) (s : List Char)
    (h : c ∉ ['"', '\\', '\n', '\r', '\t']) :
    escChar c = [c] ∧
    escChar '"' = ['\\', '"'] ∧
    escChar '\\' = ['\\', '\\'] ∧
    escChar '\n' = ['\\', 'n'] ∧
    escChar '\r' = ['\\', 'r'] ∧
    escChar '\t' = ['\\', 't'] ∧
    dump (Json.str s) (-1) = ['"'] ++ s.flatMap escChar ++ ['"'] ∧
    parse ("\"a\\nb\"".toList) = .ok (Json.str ['a', '\n', 'b']) ∧
    dump (Json.str ['a', '\n', 'b']) (-1) = ("\"a\\nb\"".toList) := by
  simp only [List.mem_cons, List.mem_singleton, not_or] at h
  obtain ⟨h1, h2, h3, h4, h5⟩ := h
  refine ⟨?_, rfl, rfl, rfl, rfl, rfl, rfl, by decide, by decide⟩
  simp [escChar, h1, h2, h3, h4, h5]

theorem dump_string_escapes_witness :
    escChar 'x' = ['x'] :=
  (dump_string_escapes 'x' [] (by decide)).1

/-- **C9**: each typed accessor succeeds exactly when the active
variant is the requested one and then returns the contained value;
on any other variant it fails with the type-mismatch error and never
coerces — `as_number` on a String always fails, and `as_string` on
the Number parsed from `"42"` fails. -/
theorem typed_accessors_spec (v : Json) :
    (isOkE (as_bool v) = is_bool v) ∧
    (isOkE (as_number v) = is_number v) ∧
    (isOkE (as_string v) = is_string v) ∧
    (isOkE (as_array v) = is_array v) ∧
    (isOkE (as_object v) = is_object v) ∧
    (∀ b, as_bool (Json.bool b) = .ok b) ∧
    (∀ q, as_number (Json.num q) = .ok q) ∧
    (∀ s, as_string (Json.str s) = .ok s) ∧
    (∀ xs, as_array (Json.arr xs) = .ok xs) ∧
    (∀ kvs, as_object (Json.obj kvs) = .ok kvs) ∧
    (∀ s, as_number (Json.str s) = .error "not a number") ∧
    parse ("42".toList) = .ok (Json.num 42) ∧
    as_string (Json.num 42) = .error "not a string" := by
  refine ⟨?_, ?_, ?_, ?_, ?_, fun b => rfl, fun q => rfl, fun s => rfl,
    fun xs => rfl, fun kvs => rfl, fun s => rfl, by decide, rfl⟩ <;>
    cases v <;> rfl

/-- **C10** (counterexample): a parsed String value can contain a NUL
byte — `\u0000` decodes to code point 0 and appends the raw byte 0 —
refuting the claim that no parsed String ever contains NUL. -/
theorem nul_in_parsed_string_counterexample :
    parse (['"', '\\', 'u', '0', '0', '0', '0', '"']) = .ok (Json.str [Char.ofNat 0]) ∧
    Char.ofNat 0 ∈ [Char.ofNat 0] := by
  exact ⟨by decide, by decide⟩

/-- **C10** (amended): when the string loop reads a raw NUL byte at
an ordinary character position it fails with `unterminated string` at
that byte's offset, because `peek` uses `'\0'` as its end-of-input
sentinel — so `parse` rejects raw NUL bytes inside string literals,
as on `"a<NUL>b"`; a parsed String can nevertheless contain a NUL
byte, produced only by the `\u0000` escape. -/
theorem nul_terminates_string_scan (input : List Char) (pos : Nat) (acc : List Char)
    (k : Nat) (h : input.get? pos = some (Char.ofNat 0)) :
    parseStringLoopF (k + 1) input pos acc = .error ⟨"unterminated string", pos⟩ ∧
    parse (['"', 'a', Char.ofNat 0, 'b', '"']) = .error ⟨"unterminated string", 2⟩ ∧
    parse (['"', '\\', 'u', '0', '0', '0', '0', '"']) = .ok (Json.str [Char.ofNat 0]) := by
  refine ⟨?_, by decide, by decide⟩
  have hp : peek input pos = Char.ofNat 0 := by
    rw [List.get?_eq_getElem?] at h
    simp [peek, List.getD_eq_getElem?_getD, h]
  rw [parseStringLoopF, hp]
  simp

theorem nul_terminates_string_scan_witness :
    parseStringLoopF 1 ['"', Char.ofNat 0] 1 [] = .error ⟨"unterminated string", 1⟩ :=
  (nul_terminates_string_scan ['"', Char.ofNat 0] 1 [] 0 (by decide)).1

/-- **C5**: a `\uXXXX` escape with four hex digits decodes them as a
code point and appends its UTF-8 encoding — 1 byte below 0x80, 2
below 0x800, 3 otherwise — so `"\u0041"` parses to the string `A`;
fewer than four hex digits fail with the invalid-unicode-escape
error, and an escape character outside `" \ / n r t b f u` fails
with the invalid-escape error. -/
theorem string_escape_spec (h1 h2 h3 h4 e : Char) (rest acc : List Char) (k : Nat)
    (hx1 : isXDigitChar h1 = true) (hx2 : isXDigitChar h2 = true)
    (hx3 : isXDigitChar h3 = true) (hx4 : isXDigitChar h4 = true)
    (he : e ∉ ['"', '\\', '/', 'n', 'r', 't', 'b', 'f', 'u']) :
    parse_string (['"', '\\', 'u', h1, h2, h3, h4, '"']) 0 =
      .ok (utf8Encode (hexVal h1 * 4096 + hexVal h2 * 256 + hexVal h3 * 16 + hexVal h4),
        8) ∧
    (∀ cp : Nat, (utf8Encode cp).length =
        if cp < 0x80 then 1 else if cp < 0x800 then 2 else 3) ∧
    parseStringLoopF (k + 1) ('"' :: '\\' :: e :: rest) 1 acc =
      .error ⟨"invalid escape sequence", 2⟩ ∧
    parse ("\"\\u0041\"".toList) = .ok (Json.str ['A']) ∧
    parse ("\"\\u00\"".toList) = .error ⟨"invalid unicode escape", 5⟩ := by
  refine ⟨?_, ?_, ?_, by decide, by decide⟩
  · simp [parse_string, expect, consume, parseStringLoopF, peek, List.getD,
      hx1, hx2, hx3, hx4]
    rfl
  · intro cp
    unfold utf8Encode
    split_ifs <;> simp
  · simp only [List.mem_cons, List.mem_singleton, not_or] at he
    obtain ⟨e1, e2, e3, e4, e5, e6, e7, e8, e9⟩ := he
    rw [parseStringLoopF]
    simp [peek, List.getD, consume, e1, e2, e3, e4, e5, e6, e7, e8, e9]

/-- **C6**: `parse` skips leading whitespace, parses exactly one
value, skips trailing whitespace and requires end of input: when the
value parser fails, `parse` fails with that very error (fail-fast, no
partial tree — the result type holds either one tree or one error
with message and offset); when it succeeds at position `p` (within
the input) and trailing-whitespace skipping stops short of the end,
`parse` fails with the trailing-content error whose offset is the
first unconsumed byte: everything in `[p, offset)` is whitespace and
the byte at the offset is not. -/
theorem parse_toplevel_spec (input : List Char) :
    (∀ e, parse_value (topFuel input) input (skip_whitespace input 0) = .error e →
        parse input = .error e) ∧
    (∀ v p, parse_value (topFuel input) input (skip_whitespace input 0) = .ok (v, p) →
      p ≤ input.length →
      (skip_whitespace input p = input.length → parse input = .ok v) ∧
      (skip_whitespace input p ≠ input.length →
        parse input =
          .error ⟨"unexpected characters after JSON", skip_whitespace input p⟩ ∧
        skip_whitespace input p < input.length ∧
        isCSpace (peek input (skip_whitespace input p)) = false ∧
        (∀ i, p ≤ i → i < skip_whitespace input p →
          isCSpace (peek input i) = true))) := by
  constructor
  · intro e he
    simp only [parse, he]
  · intro v p hv hp
    have hle : skip_whitespace input p ≤ input.length :=
      skipWsF_le_length input.length input p hp
    constructor
    · intro hend
      simp only [parse, hv, hend]
      simp
    · intro hne
      refine ⟨?_, by omega, ?_, ?_⟩
      · simp only [parse, hv]
        simp [hne]
      · have hstop : ¬(skip_whitespace input p < input.length ∧
            isCSpace (peek input (skip_whitespace input p)) = true) :=
          skipWsF_stop input.length input p (Nat.sub_le _ _)
        cases hcs : isCSpace (peek input (skip_whitespace input p)) with
        | false => rfl
        | true => exact absurd ⟨by omega, hcs⟩ hstop
      · intro i hi1 hi2
        exact skipWsF_ws input.length input p i hi1 hi2

theorem parse_toplevel_spec_witness :
    parse ("1 x".toList) = .error ⟨"unexpected characters after JSON", 2⟩ :=
  ((((parse_toplevel_spec ("1 x".toList)).2 (Json.num 1) 1 (by decide)
    (by decide)).2) (by decide)).1

theorem string_escape_spec_witness :
    parse_string (['"', '\\', 'u', '0', '0', '4', '1', '"']) 0 = .ok (['A'], 8) ∧
    parseStringLoopF 1 ['"', '\\', 'x', '"'] 1 [] =
      .error ⟨"invalid escape sequence", 2⟩ :=
  ⟨(string_escape_spec '0' '0' '4' '1' 'x' ['"'] [] 0
      (by decide) (by decide) (by decide) (by decide) (by decide)).1,
   (string_escape_spec '0' '0' '4' '1' 'x' ['"'] [] 0
      (by decide) (by decide) (by decide) (by decide) (by decide)).2.2.1⟩

end JsonParser
